import Mathlib

/-!
Verification of the entry-extraction pipeline of `src/urth.py`.

The script walks the direct children of a parsed document (`process_input`),
recognizing headwords (the space-joined, trimmed text of direct children with
class "bold") and accumulating definition fragments, stops at the sentinel
headword `last_word`, optionally adds plural key variants (`add_plurals`),
and writes the result (`safe_write`).

Embedding notes:
* An `Element` models one direct child of the soup as seen by the script:
  `bold` is the list of extracted texts of its direct children with class
  "bold" (in document order), and `body` is the text `el.get_text()` would
  return after those bold children have been removed (`decompose`d).
* `get_definition` in the Python code mutates the tree (it decomposes the
  bold children before extracting text), so its embedding returns both the
  extracted text and the element as left behind by the mutation; the loop
  threads the processed elements through so that the post-run state of the
  stream (`process_soup`) is observable.
* Python `str.strip()` is rendered as `strip` below (drop leading and
  trailing whitespace characters), `" ".join` / `"<br>".join` as
  `String.intercalate`, and `or None` (truthiness) as `Option` with
  `none` for the empty string.
-/

/-- Python `str.strip()`: remove leading and trailing whitespace. -/
def strip (s : String) : String :=
  ⟨((s.data.dropWhile Char.isWhitespace).reverse.dropWhile
      Char.isWhitespace).reverse⟩

/-- One direct child element of the soup: the texts of its direct
children of class "bold", and its remaining (non-bold) text. -/
structure Element where
  bold : List String
  body : String
deriving DecidableEq

/-- The sentinel headword (constant `last_word` in the script). -/
def last_word : String := "zoetic"

/-- `merge`: space-join the texts, strip, and return `None` for empty
(`result or None`). -/
def merge (els : List String) : Option String :=
  if strip (String.intercalate " " els) = "" then none
  else some (strip (String.intercalate " " els))

/-- `get_word`: merge the texts of the direct bold-class children. -/
def get_word (el : Element) : Option String :=
  merge el.bold

/-- `get_definition`: decompose the bold-class children, then return the
stripped remaining text, or `None` if empty.  The second component is the
element after the mutation (bold children removed, body text intact). -/
def get_definition (el : Element) : Option String × Element :=
  (if strip el.body = "" then none else some (strip el.body), ⟨[], el.body⟩)

/-- `join_definition`: `"<br>".join(definitions)`. -/
def join_definition (definitions : List String) : String :=
  String.intercalate "<br>" definitions

/-- `result.append((word, join_definition(definition)))` guarded by
`if word:` — the flush of the previous entry when a new headword
candidate is recognized. -/
def flush_entry (word : Option String) (defn : List String)
    (res : List (String × String)) : List (String × String) :=
  match word with
  | some prev => res ++ [(prev, join_definition defn)]
  | none => res

/-- `if current_definition: definition.append(current_definition)`. -/
def append_fragment (defn : List String) (d : Option String) : List String :=
  match d with
  | some t => defn ++ [t]
  | none => defn

/-- The loop body of `process_input`, with the loop state (`word`,
`definition`, `result`) explicit.  Returns the emitted entries together
with the element stream as left behind by the run (elements on which
`get_definition` ran have their bold children decomposed; on `break` the
remaining elements are untouched). -/
def process_loop : Option String → List String → List (String × String) →
    List Element → List (String × String) × List Element
  | _, _, res, [] => (res, [])
  | word, defn, res, el :: rest =>
    match get_word el with
    | some w =>
      -- new headword: flush the previous entry, clear the fragments,
      -- then extract this element's definition text (mutating `el`)
      -- and check the sentinel
      if w = last_word then
        (flush_entry word defn res ++
           [(w, join_definition (append_fragment [] (get_definition el).1))],
         (get_definition el).2 :: rest)
      else
        ((process_loop (some w) (append_fragment [] (get_definition el).1)
            (flush_entry word defn res) rest).1,
         (get_definition el).2 ::
           (process_loop (some w) (append_fragment [] (get_definition el).1)
             (flush_entry word defn res) rest).2)
    | none =>
      match word with
      | none =>
        -- no active word: no definition extraction, sentinel check false
        ((process_loop none defn res rest).1,
         el :: (process_loop none defn res rest).2)
      | some w =>
        -- active word: extract this element's definition text
        -- (mutating `el`) and check the sentinel
        if w = last_word then
          (res ++
             [(w, join_definition (append_fragment defn (get_definition el).1))],
           (get_definition el).2 :: rest)
        else
          ((process_loop (some w) (append_fragment defn (get_definition el).1)
              res rest).1,
           (get_definition el).2 ::
             (process_loop (some w) (append_fragment defn (get_definition el).1)
               res rest).2)

/-- `process_input`: the emitted `(headword, definition)` entries. -/
def process_input (els : List Element) : List (String × String) :=
  (process_loop none [] [] els).1

/-- The element stream after a run of `process_input` (the Python run
mutates the soup in place via `decompose`). -/
def process_soup (els : List Element) : List Element :=
  (process_loop none [] [] els).2

/-- `MultiStr` (from pyglossary): a key that is either a single string or
a list of strings. -/
inductive MultiStr where
  | one (s : String)
  | many (ls : List String)
deriving DecidableEq

/-- The observable outcome of `add_plurals`: the new entry list, the
warning messages logged, and the reported plural count. -/
structure AddPluralsResult where
  new_defs : List (MultiStr × String)
  warnings : List String
  plural_count : Nat
deriving DecidableEq

/-- `add_plurals`, with the external pluralization engine passed in as a
function that either returns the plural form or signals an error (the
Python code calls `inflect` inside `try`/`except`).  `if plural and
plural != word` succeeds exactly when the call returned a non-empty form
different from the word. -/
def add_plurals (plural : String → Except Unit String) :
    List (String × String) → AddPluralsResult
  | [] => ⟨[], [], 0⟩
  | (word, definition) :: rest =>
    match add_plurals plural rest with
    | r =>
      match plural word with
      | .error _ =>
        ⟨(.one word, definition) :: r.new_defs,
         ("Failure while checking plural for " ++ word) :: r.warnings,
         r.plural_count⟩
      | .ok pl =>
        if pl ≠ "" ∧ pl ≠ word then
          ⟨(.many [word, pl], definition) :: r.new_defs, r.warnings,
           r.plural_count + 1⟩
        else
          ⟨(.one word, definition) :: r.new_defs, r.warnings, r.plural_count⟩

/-- Log levels of the script's logger calls. -/
inductive LogLevel where
  | info
  | warning
deriving DecidableEq

/-- Observable trace of `safe_write`: the log lines, whether the `write`
stage (glossary serialization) was invoked, and whether the produced
artifact was copied to the output path. -/
structure WriteTrace where
  logs : List (LogLevel × String)
  write_called : Bool
  copied_to_output : Bool
deriving DecidableEq

/-- `safe_write`.  The filesystem outcome of the external `write` stage
(whether `result_path.exists()` afterwards) is abstracted by the
`result_exists` flag; log messages keep their text with paths elided. -/
def safe_write (result_exists : Bool) (defs : List (MultiStr × String)) :
    WriteTrace :=
  if defs.isEmpty then
    { logs := [(.warning, "No definitions found, no mobi created")],
      write_called := false, copied_to_output := false }
  else if result_exists then
    { logs := [(.info, "Parsed " ++ toString defs.length ++ " definitions"),
               (.info, "Writing dictionary..."),
               (.info, "Successfully created output")],
      write_called := true, copied_to_output := true }
  else
    { logs := [(.info, "Parsed " ++ toString defs.length ++ " definitions"),
               (.info, "Writing dictionary..."),
               (.warning, "Some error occurred, no mobi was created")],
      write_called := true, copied_to_output := false }

/-! ### Helper lemmas -/

theorem intercalate_go_append (s : String) : ∀ (l : List String) (a b : String),
    String.intercalate.go (a ++ b) s l = a ++ String.intercalate.go b s l := by
  intro l
  induction l with
  | nil => intro a b; rfl
  | cons x xs ih =>
    intro a b
    show String.intercalate.go ((a ++ b) ++ s ++ x) s xs =
      a ++ String.intercalate.go (b ++ s ++ x) s xs
    have h : (a ++ b) ++ s ++ x = a ++ (b ++ s ++ x) := by
      simp [String.append_assoc]
    rw [h, ih]

theorem intercalate_cons_cons (s a b : String) (l : List String) :
    String.intercalate s (a :: b :: l) = a ++ s ++ String.intercalate s (b :: l) := by
  show String.intercalate.go (a ++ s ++ b) s l = a ++ s ++ String.intercalate.go b s l
  rw [intercalate_go_append]

/-- The per-entry transformation performed by the `add_plurals` loop. -/
def plural_entry (plural : String → Except Unit String) (wd : String × String) :
    MultiStr × String :=
  match plural wd.1 with
  | .error _ => (.one wd.1, wd.2)
  | .ok pl =>
    if pl ≠ "" ∧ pl ≠ wd.1 then (.many [wd.1, pl], wd.2) else (.one wd.1, wd.2)

theorem add_plurals_new_defs (f : String → Except Unit String)
    (defs : List (String × String)) :
    (add_plurals f defs).new_defs = defs.map (plural_entry f) := by
  induction defs with
  | nil => rfl
  | cons wd rest ih =>
    obtain ⟨word, definition⟩ := wd
    simp only [add_plurals, List.map_cons]
    cases hf : f word with
    | error e => simp [plural_entry, hf, ih]
    | ok pl =>
      by_cases hc : pl ≠ "" ∧ pl ≠ word
      · simp [plural_entry, hf, hc, ih]
      · simp [plural_entry, hf, hc, ih]

theorem add_plurals_warnings (f : String → Except Unit String)
    (defs : List (String × String)) :
    (add_plurals f defs).warnings = defs.filterMap (fun wd =>
      match f wd.1 with
      | .error _ => some ("Failure while checking plural for " ++ wd.1)
      | .ok _ => none) := by
  induction defs with
  | nil => rfl
  | cons wd rest ih =>
    obtain ⟨word, definition⟩ := wd
    simp only [add_plurals, List.filterMap_cons]
    cases hf : f word with
    | error e => simp [hf, ih]
    | ok pl =>
      by_cases hc : pl ≠ "" ∧ pl ≠ word
      · simp [hf, hc, ih]
      · simp [hf, hc, ih]

theorem plural_entry_snd (f : String → Except Unit String) (wd : String × String) :
    (plural_entry f wd).2 = wd.2 := by
  unfold plural_entry
  cases f wd.1 with
  | error e => rfl
  | ok pl =>
    by_cases hc : pl ≠ "" ∧ pl ≠ wd.1
    · simp [hc]
    · simp [hc]

/-! ### Claims about the enrichment and write stages -/

/-- C5: in tree-walk mode, an emitted definition assembled from two or
more accumulated fragments is the fragments joined with the explicit
line-break marker `"<br>"` between consecutive fragments (not direct
concatenation), and the flush of an entry with such a fragment list emits
exactly that joined string. -/
theorem claim_c5_join_line_break (d1 d2 : String) (ds : List String)
    (w : String) (res : List (String × String)) :
    join_definition (d1 :: d2 :: ds) = d1 ++ "<br>" ++ join_definition (d2 :: ds) ∧
    flush_entry (some w) (d1 :: d2 :: ds) res =
      res ++ [(w, d1 ++ "<br>" ++ join_definition (d2 :: ds))] := by
  have h : join_definition (d1 :: d2 :: ds) = d1 ++ "<br>" ++ join_definition (d2 :: ds) := by
    unfold join_definition
    exact intercalate_cons_cons "<br>" d1 d2 ds
  exact ⟨h, by rw [flush_entry, h]⟩

/-- C6: after enrichment each entry's key is either the original single
key — exactly when the pluralizer failed, or returned the empty string or
a form identical to the key — or the two-element ordered key list
`[original, plural]` with a non-empty plural different from the original;
entries are neither reordered, collapsed, nor given more than two keys. -/
theorem claim_c6_key_set_shape (f : String → Except Unit String)
    (defs : List (String × String)) :
    List.Forall₂ (fun wd kd =>
      (∃ p, f wd.1 = Except.ok p ∧ p ≠ "" ∧ p ≠ wd.1 ∧
        kd.1 = MultiStr.many [wd.1, p]) ∨
      (kd.1 = MultiStr.one wd.1 ∧ ∀ p, f wd.1 = Except.ok p → p = "" ∨ p = wd.1))
      defs (add_plurals f defs).new_defs := by
  rw [add_plurals_new_defs, List.forall₂_map_right_iff]
  rw [List.forall₂_same]
  intro wd _
  unfold plural_entry
  cases hf : f wd.1 with
  | error e =>
    right
    refine ⟨rfl, fun p hp => absurd hp (by simp)⟩
  | ok pl =>
    by_cases hc : pl ≠ "" ∧ pl ≠ wd.1
    · left
      exact ⟨pl, rfl, hc.1, hc.2, by simp [hc]⟩
    · right
      push_neg at hc
      have hneg : ¬(pl ≠ "" ∧ pl ≠ wd.1) := by
        rintro ⟨h1, h2⟩
        exact h2 (hc h1)
      refine ⟨by simp [hneg], fun p hp => ?_⟩
      cases hp
      by_cases h1 : pl = ""
      · exact Or.inl h1
      · exact Or.inr (hc h1)

/-- C7: when the pluralizer raises for some entry's key, that entry keeps
its single original key and its definition unchanged, a warning naming
the key is logged, and the remaining entries are still processed (the
output has one entry per input entry); the failure does not escape
`add_plurals`, which is a total function. -/
theorem claim_c7_plural_failure_recovered (f : String → Except Unit String)
    (defs : List (String × String)) (i : Nat) (h : i < defs.length)
    (herr : f ((defs.get ⟨i, h⟩).1) = Except.error ()) :
    ((add_plurals f defs).new_defs)[i]? =
      some (MultiStr.one (defs.get ⟨i, h⟩).1, (defs.get ⟨i, h⟩).2) ∧
    (add_plurals f defs).new_defs.length = defs.length ∧
    ("Failure while checking plural for " ++ (defs.get ⟨i, h⟩).1) ∈
      (add_plurals f defs).warnings := by
  refine ⟨?_, ?_, ?_⟩
  · rw [add_plurals_new_defs, List.getElem?_map,
      List.getElem?_eq_getElem h]
    show some (plural_entry f (defs.get ⟨i, h⟩)) = _
    unfold plural_entry
    rw [herr]
  · rw [add_plurals_new_defs, List.length_map]
  · rw [add_plurals_warnings]
    rw [List.mem_filterMap]
    refine ⟨defs.get ⟨i, h⟩, List.get_mem defs i h, ?_⟩
    rw [herr]

/-- C7 witness: a pluralizer that always raises leaves the single entry
with its original key and definition and logs the warning. -/
theorem claim_c7_witness :
    ((add_plurals (fun _ => Except.error ()) [("cat", "a feline")]).new_defs)[0]? =
      some (MultiStr.one "cat", "a feline") ∧
    (add_plurals (fun _ => Except.error ()) [("cat", "a feline")]).new_defs.length = 1 ∧
    ("Failure while checking plural for " ++ "cat") ∈
      (add_plurals (fun _ => Except.error ()) [("cat", "a feline")]).warnings :=
  claim_c7_plural_failure_recovered (fun _ => Except.error ())
    [("cat", "a feline")] 0 (by decide) rfl

/-- C8: `add_plurals` returns one output entry per input entry, in the
same order, with every definition string unchanged; only the key
component may differ. -/
theorem claim_c8_definitions_unchanged (f : String → Except Unit String)
    (defs : List (String × String)) :
    (add_plurals f defs).new_defs.length = defs.length ∧
    (add_plurals f defs).new_defs.map Prod.snd = defs.map Prod.snd := by
  refine ⟨?_, ?_⟩
  · rw [add_plurals_new_defs, List.length_map]
  · rw [add_plurals_new_defs, List.map_map]
    exact List.map_congr_left (fun wd _ => plural_entry_snd f wd)

/-- C9: with zero extracted entries, `safe_write` logs the no-definitions
warning (it does not raise: it returns its trace normally), does not
invoke the glossary `write` stage, and copies nothing to the output path
— regardless of the state of the filesystem. -/
theorem claim_c9_zero_entries_skips_write (result_exists : Bool) :
    safe_write result_exists [] =
      { logs := [(LogLevel.warning, "No definitions found, no mobi created")],
        write_called := false, copied_to_output := false } := by
  rfl

/-! ### Invariants of the extraction loop -/

/-- A run of the loop never changes the body text of any element: the
in-place mutation removes bold children only. -/
theorem process_loop_soup_bodies : ∀ (els : List Element) (word : Option String)
    (defn : List String) (res : List (String × String)),
    ((process_loop word defn res els).2).map Element.body = els.map Element.body := by
  intro els
  induction els with
  | nil => intro word defn res; rfl
  | cons el rest ih =>
    intro word defn res
    cases hcw : get_word el with
    | some w =>
      by_cases hl : w = last_word
      · simp [process_loop, hcw, hl, get_definition]
      · simp [process_loop, hcw, hl, get_definition, ih]
    | none =>
      cases word with
      | none => simp [process_loop, hcw, ih]
      | some w =>
        by_cases hl : w = last_word
        · simp [process_loop, hcw, hl, get_definition]
        · simp [process_loop, hcw, hl, get_definition, ih]

/-- On a stream with no sentinel headword, the headwords of the emitted
entries are the already-flushed ones followed by every recognized
headword except the last (which stays in progress and is dropped at end
of input). -/
theorem process_loop_no_sentinel_keys : ∀ els : List Element,
    (∀ e ∈ els, get_word e ≠ some last_word) →
    ((∀ defn res, ((process_loop none defn res els).1).map Prod.fst =
        res.map Prod.fst ++ (els.filterMap get_word).dropLast) ∧
     (∀ w defn res, w ≠ last_word →
        ((process_loop (some w) defn res els).1).map Prod.fst =
          res.map Prod.fst ++ ((w :: els.filterMap get_word).dropLast))) := by
  intro els
  induction els with
  | nil =>
    intro _
    exact ⟨fun defn res => by simp [process_loop],
           fun w defn res hw => by simp [process_loop]⟩
  | cons el rest ih =>
    intro h
    have hel : get_word el ≠ some last_word := h el (List.mem_cons_self el rest)
    have hrest : ∀ e ∈ rest, get_word e ≠ some last_word :=
      fun e he => h e (List.mem_cons_of_mem el he)
    obtain ⟨ih1, ih2⟩ := ih hrest
    cases hcw : get_word el with
    | none =>
      constructor
      · intro defn res
        simp only [process_loop, hcw]
        rw [ih1 defn res]
        simp [List.filterMap_cons, hcw]
      · intro w defn res hw
        simp only [process_loop, hcw, if_neg hw]
        rw [ih2 w _ res hw]
        simp [List.filterMap_cons, hcw]
    | some w' =>
      have hw' : w' ≠ last_word := by
        intro hh
        exact hel (by rw [hcw, hh])
      constructor
      · intro defn res
        simp only [process_loop, hcw, if_neg hw']
        rw [ih2 w' _ (flush_entry none defn res) hw']
        simp [flush_entry, List.filterMap_cons, hcw]
      · intro w defn res hw
        simp only [process_loop, hcw, if_neg hw']
        rw [ih2 w' _ (flush_entry (some w) defn res) hw']
        have hne : (w' :: rest.filterMap get_word) ≠ [] := by simp
        simp [flush_entry, List.filterMap_cons, hcw,
          List.dropLast_cons_of_ne_nil hne]

/-- Once the element that makes the sentinel active is reached, the loop
breaks: the entries do not depend on anything after that element. -/
theorem process_loop_stop : ∀ p : List Element,
    (∀ x ∈ p, get_word x ≠ some last_word) →
    ∀ (e : Element) (s : List Element) (word : Option String)
      (defn : List String) (res : List (String × String)),
    get_word e = some last_word → word ≠ some last_word →
    (process_loop word defn res (p ++ e :: s)).1 =
      (process_loop word defn res (p ++ [e])).1 := by
  intro p
  induction p with
  | nil =>
    intro _ e s word defn res he hw
    simp only [List.nil_append]
    simp [process_loop, he]
  | cons x p' ih =>
    intro h e s word defn res he hw
    have hx : get_word x ≠ some last_word := h x (List.mem_cons_self x p')
    have hp' : ∀ y ∈ p', get_word y ≠ some last_word :=
      fun y hy => h y (List.mem_cons_of_mem x hy)
    cases hcw : get_word x with
    | some w' =>
      have hw' : w' ≠ last_word := by
        intro hh
        exact hx (by rw [hcw, hh])
      simp only [List.cons_append, process_loop, hcw, if_neg hw']
      exact ih hp' e s (some w') _ _ he (by simp [hw'])
    | none =>
      cases word with
      | none =>
        simp only [List.cons_append, process_loop, hcw]
        exact ih hp' e s none defn res he hw
      | some w =>
        have hwne : w ≠ last_word := by
          intro hh
          exact hw (by rw [hh])
        simp only [List.cons_append, process_loop, hcw, if_neg hwne]
        exact ih hp' e s (some w) _ res he hw

/-- Flushing an entry whose active word is not the sentinel adds no
sentinel-keyed entry. -/
theorem flush_entry_countP (word : Option String) (defn : List String)
    (res : List (String × String)) (hw : word ≠ some last_word)
    (hres : res.countP (fun en => en.1 == last_word) = 0) :
    (flush_entry word defn res).countP (fun en => en.1 == last_word) = 0 := by
  cases word with
  | none => exact hres
  | some prev =>
    have hprev : prev ≠ last_word := by
      intro hh
      exact hw (by rw [hh])
    simp [flush_entry, List.countP_append, hres, List.countP_cons, hprev]

/-- Up to the element that makes the sentinel active, exactly one
sentinel-keyed entry is emitted (the final one). -/
theorem process_loop_sentinel_count : ∀ p : List Element,
    (∀ x ∈ p, get_word x ≠ some last_word) →
    ∀ (e : Element) (word : Option String) (defn : List String)
      (res : List (String × String)),
    get_word e = some last_word → word ≠ some last_word →
    res.countP (fun en => en.1 == last_word) = 0 →
    ((process_loop word defn res (p ++ [e])).1).countP
      (fun en => en.1 == last_word) = 1 := by
  intro p
  induction p with
  | nil =>
    intro _ e word defn res he hw hres
    simp only [List.nil_append]
    simp [process_loop, he, List.countP_append, List.countP_cons,
      flush_entry_countP word defn res hw hres]
  | cons x p' ih =>
    intro h e word defn res he hw hres
    have hx : get_word x ≠ some last_word := h x (List.mem_cons_self x p')
    have hp' : ∀ y ∈ p', get_word y ≠ some last_word :=
      fun y hy => h y (List.mem_cons_of_mem x hy)
    cases hcw : get_word x with
    | some w' =>
      have hw' : w' ≠ last_word := by
        intro hh
        exact hx (by rw [hcw, hh])
      simp only [List.cons_append, process_loop, hcw, if_neg hw']
      exact ih hp' e (some w') _ _ he (by simp [hw'])
        (flush_entry_countP word defn res hw hres)
    | none =>
      cases word with
      | none =>
        simp only [List.cons_append, process_loop, hcw]
        exact ih hp' e none defn res he hw hres
      | some w =>
        have hwne : w ≠ last_word := by
          intro hh
          exact hw (by rw [hh])
        simp only [List.cons_append, process_loop, hcw, if_neg hwne]
        exact ih hp' e (some w) _ res he hw hres

/-- Elements on which no headword is recognized are skipped entirely
while no word is active. -/
theorem process_loop_skip_front : ∀ p : List Element,
    (∀ x ∈ p, get_word x = none) →
    ∀ (s : List Element) (defn : List String) (res : List (String × String)),
    (process_loop none defn res (p ++ s)).1 = (process_loop none defn res s).1 := by
  intro p
  induction p with
  | nil => intro _ s defn res; rfl
  | cons x p' ih =>
    intro h s defn res
    have hx : get_word x = none := h x (List.mem_cons_self x p')
    have hp' : ∀ y ∈ p', get_word y = none :=
      fun y hy => h y (List.mem_cons_of_mem x hy)
    simp only [List.cons_append, process_loop, hx]
    exact ih hp' s defn res

/-! ### Claims about the extraction loop -/

/-- C1: on a stream whose first sentinel-recognizing element is `e`, the
extraction result is the same as if the stream ended right after `e`
(nothing after `e` is consumed, so no entry arises from any later
headword candidate), and exactly one emitted entry has the sentinel as
its headword. -/
theorem claim_c1_sentinel_termination (p s : List Element) (e : Element)
    (hp : ∀ x ∈ p, get_word x ≠ some last_word)
    (he : get_word e = some last_word) :
    process_input (p ++ e :: s) = process_input (p ++ [e]) ∧
    (process_input (p ++ e :: s)).countP (fun en => en.1 == last_word) = 1 := by
  have h1 := process_loop_stop p hp e s none [] [] he (by simp)
  have h2 := process_loop_sentinel_count p hp e none [] [] he (by simp) (by simp)
  refine ⟨h1, ?_⟩
  show ((process_loop none [] [] (p ++ e :: s)).1).countP
    (fun en => en.1 == last_word) = 1
  rw [h1]
  exact h2

/-- C1 witness: a concrete stream with an entry before the sentinel and
a headword candidate after it. -/
theorem claim_c1_witness :
    process_input [⟨["alef"], "d"⟩, ⟨["zoetic"], "f"⟩, ⟨["b"], "x"⟩] =
      process_input [⟨["alef"], "d"⟩, ⟨["zoetic"], "f"⟩] ∧
    (process_input [⟨["alef"], "d"⟩, ⟨["zoetic"], "f"⟩, ⟨["b"], "x"⟩]).countP
      (fun en => en.1 == last_word) = 1 :=
  claim_c1_sentinel_termination [⟨["alef"], "d"⟩] [⟨["b"], "x"⟩]
    ⟨["zoetic"], "f"⟩ (by decide) (by decide)

/-- C2 counterexample: a run of `process_input` decomposes the bold
children of the elements it visits, so running it a second time over the
very same (now mutated) stream returns a different entry sequence — here
the first run yields one entry and the second run yields none. -/
theorem claim_c2_counterexample :
    process_input (process_soup [⟨["alef"], "adef"⟩, ⟨["b"], "bdef"⟩]) ≠
      process_input [⟨["alef"], "adef"⟩, ⟨["b"], "bdef"⟩] := by decide

/-- C2 (amended): `process_input` carries no hidden state between runs —
two runs over equal, freshly derived input streams yield identical entry
sequences — but it mutates the stream it is given in place (bold
children are removed; body text is preserved), so only a fresh stream,
not the already-processed one, reproduces the result. -/
theorem claim_c2_amended_determinism :
    (∀ els1 els2 : List Element, els1 = els2 →
      process_input els1 = process_input els2) ∧
    (∀ els : List Element,
      (process_soup els).map Element.body = els.map Element.body) := by
  constructor
  · intro els1 els2 h
    rw [h]
  · intro els
    exact process_loop_soup_bodies els none [] []

/-- C2 witness: the determinism part applied at a concrete stream. -/
theorem claim_c2_witness :
    process_input [⟨["alef"], "x"⟩] = process_input [⟨["alef"], "x"⟩] :=
  claim_c2_amended_determinism.1 [⟨["alef"], "x"⟩] [⟨["alef"], "x"⟩] rfl

/-- C3: an element whose bold children's joined extracted text strips to
the empty string yields no headword candidate: processing it neither
starts a new entry nor flushes the active one — the loop continues with
the same active word and the same emitted entries, at most appending the
element's text as a definition fragment of the active entry. -/
theorem claim_c3_empty_headword_no_flush (el : Element) (s : List Element)
    (word : Option String) (defn : List String) (res : List (String × String))
    (hempty : strip (String.intercalate " " el.bold) = "")
    (hw : word ≠ some last_word) :
    (process_loop word defn res (el :: s)).1 =
      (process_loop word
        (match word with
         | none => defn
         | some _ => append_fragment defn (get_definition el).1) res s).1 := by
  have hcw : get_word el = none := by
    simp [get_word, merge, hempty]
  cases word with
  | none => simp only [process_loop, hcw]
  | some w =>
    have hwne : w ≠ last_word := by
      intro hh
      exact hw (by rw [hh])
    simp only [process_loop, hcw, if_neg hwne]

/-- C3 witness: an element with whitespace-only bold children, processed
while the word "a" is active. -/
theorem claim_c3_witness :
    (process_loop (some "a") [] [] [⟨[" ", ""], "txt"⟩]).1 =
      (process_loop (some "a")
        (append_fragment [] (get_definition ⟨[" ", ""], "txt"⟩).1) [] []).1 :=
  claim_c3_empty_headword_no_flush ⟨[" ", ""], "txt"⟩ [] (some "a") [] []
    (by decide) (by decide)

/-- C4: elements on which no headword is recognized and that precede the
first recognized headword contribute nothing — the result on the full
stream equals the result on the stream without them, so their text
appears in no emitted definition. -/
theorem claim_c4_front_matter_dropped (p s : List Element)
    (hp : ∀ x ∈ p, get_word x = none) :
    process_input (p ++ s) = process_input s :=
  process_loop_skip_front p hp s [] []

/-- C4 witness: two front-matter elements (one with no bold children,
one with whitespace-only bold text) before the first headword. -/
theorem claim_c4_witness :
    process_input ([⟨[], "junk"⟩, ⟨["  "], "junk2"⟩] ++ [⟨["a"], "d"⟩]) =
      process_input [⟨["a"], "d"⟩] :=
  claim_c4_front_matter_dropped [⟨[], "junk"⟩, ⟨["  "], "junk2"⟩]
    [⟨["a"], "d"⟩] (by decide)

/-- C10: when the input runs out without the sentinel ever becoming
active, the emitted headwords are exactly the recognized headword
candidates minus the last one — the entry still in progress at end of
input is never emitted. -/
theorem claim_c10_last_entry_dropped (els : List Element)
    (h : ∀ e ∈ els, get_word e ≠ some last_word) :
    (process_input els).map Prod.fst = (els.filterMap get_word).dropLast ∧
    (process_input els).length = (els.filterMap get_word).length - 1 := by
  have h1 := (process_loop_no_sentinel_keys els h).1 [] []
  simp only [List.map_nil, List.nil_append] at h1
  refine ⟨h1, ?_⟩
  have h2 : (((process_loop none [] [] els).1).map Prod.fst).length =
      ((els.filterMap get_word).dropLast).length := by rw [h1]
  show ((process_loop none [] [] els).1).length =
    (els.filterMap get_word).length - 1
  simpa [List.length_map, List.length_dropLast] using h2

/-- C10 witness: two recognized headwords, no sentinel — only the first
is emitted. -/
theorem claim_c10_witness :
    (process_input [⟨["a"], "d1"⟩, ⟨["b"], "d2"⟩]).map Prod.fst =
      (([⟨["a"], "d1"⟩, ⟨["b"], "d2"⟩] : List Element).filterMap get_word).dropLast ∧
    (process_input [⟨["a"], "d1"⟩, ⟨["b"], "d2"⟩]).length =
      (([⟨["a"], "d1"⟩, ⟨["b"], "d2"⟩] : List Element).filterMap get_word).length - 1 :=
  claim_c10_last_entry_dropped [⟨["a"], "d1"⟩, ⟨["b"], "d2"⟩] (by decide)
